import Mathlib

/-!
Verification of the FaSTrack trajectory container and sampling-based graph
dynamic planner, shallowly embedded from the C++ sources
(`src/unnamed/part_001`, the `Trajectory<S>` of `fastrack/planning/trajectory.h`,
and `src/unnamed/part_002`, the `GraphDynamicPlanner`).

Modelling conventions: doubles are rationals; `constants::kInfinity` is
`Option.none`; out-of-range vector accesses and null-pointer dereferences
make the embedded operation return `none`; the state type `S` is instantiated
at a one-dimensional rational state (linear interpolation acts componentwise,
so one dimension is representative).
-/

namespace Fastrack

/-- Timestamped sequence of states held as two parallel lists
(`Trajectory<S>` of `part_001`, instantiated at a rational state). -/
structure Traj where
  states : List ℚ
  times : List ℚ
deriving DecidableEq

/-- Modelled from the spec: the planner's trajectory class
(`fastrack/trajectory/trajectory.h`, which is not under `src/`) exposes
`Duration() = t[n-1] - t[0]`. On the empty trajectory this yields `0`. -/
def Traj.Duration (tr : Traj) : ℚ := tr.times.getLastD 0 - tr.times.headD 0

/-- Modelled from the spec: `ResetFirstTime(t0)` translates all timestamps
by `t0 - t[0]`, so that the first timestamp becomes `t0`. -/
def Traj.ResetFirstTime (tr : Traj) (t0 : ℚ) : Traj :=
  { tr with times := tr.times.map (fun t => t + (t0 - tr.times.headD 0)) }

/-- One pass of the constructor's inversion-fixing loop (`part_001` lines
101-106): for `ii` running upward while `ii < length`, if
`times[ii-1] > times[ii]` then `times[ii]` is overwritten with `times[ii+1]`;
the read of `times[ii+1]` is out of range (modelled as `none`) when
`ii + 1 = length`. `fuel` bounds the remaining iterations; `fixTimes` supplies
enough fuel for the loop to run to completion exactly as in the source. -/
def fixLoop : List ℚ → Nat → Nat → Option (List ℚ)
  | times, _, 0 => some times
  | times, ii, fuel + 1 =>
    if ii < times.length then
      if times.getD (ii - 1) 0 > times.getD ii 0 then
        match times.get? (ii + 1) with
        | none => none
        | some v => fixLoop (times.set ii v) (ii + 1) fuel
      else fixLoop times (ii + 1) fuel
    else some times

/-- The inversion-fixing pass of the `Trajectory` constructor, starting at
index 1 as in the source. -/
def fixTimes (times : List ℚ) : Option (List ℚ) := fixLoop times 1 times.length

/-- The `Trajectory(states, times)` constructor (`part_001` lines 82-107):
first truncates the longer list to the length of the shorter, then runs the
inversion-fixing pass over the times. -/
def mkTrajectory (states times : List ℚ) : Option Traj :=
  let n := min states.length times.length
  (fixTimes (times.take n)).map (fun ts => ⟨states.take n, ts⟩)

/-- Which rate-limited warning `Interpolate` emits, if any. -/
inductive InterpWarn where
  | beforeFirst
  | afterLast
deriving DecidableEq

/-- Index of the first element of `l` that does not compare less than `t`,
or `l.length` when no such element exists (`std::lower_bound`). -/
def lowerBound (l : List ℚ) (t : ℚ) : Nat :=
  match l with
  | [] => 0
  | x :: xs => if t ≤ x then 0 else lowerBound xs t + 1

/-- `Trajectory<S>::Interpolate` (`part_001` lines 110-139). Returns the
interpolated state paired with the warning emitted, if any. A `none` state
models the out-of-range `front()` / `back()` reads (the source performs no
emptiness check before them). -/
def Traj.Interpolate (tr : Traj) (t : ℚ) : Option ℚ × Option InterpWarn :=
  let hi := lowerBound tr.times t
  if hi = 0 then (tr.states.head?, some InterpWarn.beforeFirst)
  else if hi = tr.times.length then (tr.states.getLast?, some InterpWarn.afterLast)
  else
    match tr.times.get? (hi - 1), tr.times.get? hi,
          tr.states.get? (hi - 1), tr.states.get? hi with
    | some tlo, some thi, some slo, some shi =>
      (some ((1 - (t - tlo) / (thi - tlo)) * slo + (t - tlo) / (thi - tlo) * shi), none)
    | _, _, _, _ => (none, none)

/-- Comparison of extended values: `vlt a b` is the double comparison `a < b`
where `none` stands for `constants::kInfinity`. Anything is `<` infinity
except infinity itself; infinity is `<` nothing. -/
def vlt : Option ℚ → Option ℚ → Bool
  | some x, some y => decide (x < y)
  | some _, none => true
  | none, _ => false

/-- A vertex of the implicit planning graph (`GraphDynamicPlanner::Node`,
`part_002` lines 94-142). Pointers to nodes are replaced by arena indices;
`none` in `time` / `cost_to_come` is `constants::kInfinity`; `none` in
`best_parent` is the null pointer. -/
structure PNode where
  state : ℚ
  time : Option ℚ
  cost_to_come : Option ℚ
  is_viable : Bool
  best_parent : Option Nat
  children : List Nat
  trajs_to_children : List Traj
deriving DecidableEq

/-- The mutable graph built by a `Plan` call: an arena of nodes indexed by
creation order (index 0 is the start node, the graph's `InitialNode()`),
the indices belonging to the goal `SearchableSet`, and the start time of the
call. `node i` is meaningful only for `i < size`; transitions only ever
produce valid indices, mirroring the impossibility of dangling pointers. -/
structure PlannerState where
  size : Nat
  node : Nat → PNode
  goals : List Nat
  startTime : ℚ

/-- Overwrite the node stored at index `i`. -/
def setNodeAt (s : PlannerState) (i : Nat) (n : PNode) : PlannerState :=
  { s with node := Function.update s.node i n }

/-- The default cost functional (`part_002` lines 83-85):
`virtual double Cost(const Trajectory<S>& traj) const { return traj.Duration(); }`. -/
def Cost (tr : Traj) : ℚ := tr.Duration

/-- The attach step of `RecursivePlan` (`part_002` lines 236-252): create
`sample_node` with time and cost accumulated from the chosen neighbor,
`is_viable = false` and `best_parent = neighbor`, record the new node as a
child of the neighbor together with the connecting sub-plan, and insert it
into the graph (as the next arena index). -/
def attachNode (s : PlannerState) (parentIdx : Nat) (sample : ℚ) (sub : Traj) :
    PlannerState :=
  let parent := s.node parentIdx
  let fresh : PNode :=
    { state := sample
      time := parent.time.map (fun t => t + sub.Duration)
      cost_to_come := parent.cost_to_come.map (fun c => c + Cost sub)
      is_viable := false
      best_parent := some parentIdx
      children := []
      trajs_to_children := [] }
  let s1 := setNodeAt s parentIdx
    { parent with
        children := parent.children ++ [s.size]
        trajs_to_children := parent.trajs_to_children ++ [sub] }
  { setNodeAt s1 s.size fresh with size := s.size + 1 }

/-- Lines 288-290 of `part_002`: record the connected goal as a child of
`sample_node`, with the connecting sub-plan. -/
def pushChild (s : PlannerState) (sampleIdx goalIdx : Nat) (sub : Traj) :
    PlannerState :=
  let sn := s.node sampleIdx
  setNodeAt s sampleIdx
    { sn with
        children := sn.children ++ [goalIdx]
        trajs_to_children := sn.trajs_to_children ++ [sub] }

/-- Line 313 of `part_002`: `child->best_parent = sample_node`. -/
def setBestParent (s : PlannerState) (childIdx parentIdx : Nat) : PlannerState :=
  let c := s.node childIdx
  setNodeAt s childIdx { c with best_parent := some parentIdx }

/-- The goal-rewiring condition of `RecursivePlan` (`part_002` lines 310-311):
`child->best_parent == nullptr || child->best_parent->cost_to_come >
sample_node->cost_to_come`. -/
def condCR (s : PlannerState) (sampleIdx goalIdx : Nat) : Bool :=
  match (s.node goalIdx).best_parent with
  | none => true
  | some p => vlt (s.node sampleIdx).cost_to_come (s.node p).cost_to_come

/-- The reattach predicate of `UpdateDescendants` as the SPEC words it:
`child.best_parent == null` or `child.best_parent.cost_to_come >
current.cost_to_come`. Stated separately from the embedded source condition
(see `processChild`) so the two can be compared. -/
def specReattachCond (s : PlannerState) (childIdx curIdx : Nat) : Bool :=
  match (s.node childIdx).best_parent with
  | none => true
  | some p => vlt (s.node curIdx).cost_to_come (s.node p).cost_to_come

/-- The viability-marking loop of `RecursivePlan` (`part_002` lines 330-334):
walk up the `best_parent` chain from `sample_node`, setting `is_viable` until
reaching an already-viable node or a null parent. The fuel (always supplied
as `size + 1`) is an upper bound on the chain length; in reachable states
best-parent chains are shorter than the fuel, so the loop runs to completion
exactly as in the source. -/
def markViable (s : PlannerState) : Option Nat → Nat → PlannerState
  | _, 0 => s
  | none, _ => s
  | some p, fuel + 1 =>
    let n := s.node p
    if n.is_viable then s
    else markViable (setNodeAt s p { n with is_viable := true }) n.best_parent fuel

/-- Store the re-timed trajectory back into `trajs_to_children[ii]` of the
current node (the `ResetFirstTime` call of `part_002` line 483). -/
def trajUpd (s : PlannerState) (cur ii : Nat) (tr2 : Traj) : PlannerState :=
  setNodeAt s cur
    { s.node cur with
        trajs_to_children := (s.node cur).trajs_to_children.set ii tr2 }

/-- Reattach `childIdx` below `cur` (`part_002` lines 489-494): rewrite its
`best_parent`, `time` and `cost_to_come`; the result is wrapped in `some`
so that it can stand for the successful branch of the per-child body. -/
def reattach (s : PlannerState) (childIdx cur : Nat) (t c : Option ℚ) :
    Option PlannerState :=
  some (setNodeAt s childIdx
    { s.node childIdx with
        best_parent := some cur
        time := t
        cost_to_come := c })

/-- The per-child body of the `UpdateDescendants` breadth-first loop
(`part_002` lines 474-495), for child index `ii` of `cur`:
reset the first time of `trajs_to_children[ii]` to `current->time`, then
evaluate `child->best_parent != nullptr || child->best_parent->cost_to_come >
current_node->cost_to_come`. When `best_parent` is null the first disjunct is
false and the second dereferences the null pointer: modelled as `none`.
Otherwise the first disjunct short-circuits to true and the child is
reattached: `best_parent`, `time` and `cost_to_come` are rewritten from the
current node. A `none` result also models the out-of-range accesses when the
parallel vectors are out of sync, and the ill-defined `ResetFirstTime` shift
when `current->time` is `kInfinity` (neither occurs in reachable states). -/
def processChild (s : PlannerState) (cur ii : Nat) : Option PlannerState :=
  match (s.node cur).children.get? ii, (s.node cur).trajs_to_children.get? ii with
  | some childIdx, some tr =>
    match (s.node cur).time with
    | none => none
    | some t0 =>
      let tr2 := tr.ResetFirstTime t0
      let s1 := trajUpd s cur ii tr2
      match (s1.node childIdx).best_parent with
      | none => none
      | some _ =>
        reattach s1 childIdx cur (some (t0 + tr2.Duration))
          ((s1.node cur).cost_to_come.map (fun c => c + Cost tr2))
  | _, _ => none

/-- Iterate `processChild` over child indices `ii, ii+1, ...` with `k`
children remaining (the `for` loop of `part_002` lines 474-496). -/
def processChildrenAux : PlannerState → Nat → Nat → Nat → Option PlannerState
  | s, _, _, 0 => some s
  | s, cur, ii, k + 1 =>
    match processChild s cur ii with
    | none => none
    | some s1 => processChildrenAux s1 cur (ii + 1) k

/-- Process every child of `cur` in order. The `children` list of `cur` is
not modified by the processing, so reading its length up front matches the
source loop bound. -/
def processChildren (s : PlannerState) (cur : Nat) : Option PlannerState :=
  processChildrenAux s cur 0 (s.node cur).children.length

/-- The breadth-first queue loop of `UpdateDescendants` (`part_002` lines
462-497): pop the oldest node, skip it if it is the anchor (`start`) node,
otherwise process and enqueue all its children. The source loop has no fuel;
the embedding adds one and `none` marks exhaustion, and the termination
theorem shows the fuel computed by `fuelBound` always suffices in reachable
states. -/
def bfsAux (anchor : Nat) : Nat → List Nat → PlannerState → Option PlannerState
  | _, [], s => some s
  | 0, _ :: _, _ => none
  | fuel + 1, cur :: rest, s =>
    if cur = anchor then bfsAux anchor fuel rest s
    else
      match processChildren s cur with
      | none => none
      | some s1 => bfsAux anchor fuel (rest ++ (s.node cur).children) s1

/-- One more than the total number of child edges: a strict upper bound on
the length of any single `children` list. -/
def kidsBound (s : PlannerState) : Nat :=
  (((List.range s.size).map (fun i => (s.node i).children.length)).sum) + 1

/-- Ranking used to show the child relation is acyclic: goal nodes rank above
everything (they have no children); other nodes rank by arena index (child
edges to non-goal nodes always point to later indices). -/
def nodeRank (s : PlannerState) (i : Nat) : Nat :=
  if i ∈ s.goals then s.size else i

/-- Weight of a node for the breadth-first termination measure. -/
def nodeW (s : PlannerState) (i : Nat) : Nat :=
  kidsBound s ^ (s.size + 1 - nodeRank s i)

/-- Total weight of a breadth-first queue. -/
def queueW (s : PlannerState) (q : List Nat) : Nat := (q.map (nodeW s)).sum

/-- Fuel given to the breadth-first loop: at least the weight of any
one-node initial queue. -/
def fuelBound (s : PlannerState) : Nat := kidsBound s ^ (s.size + 1)

/-- `UpdateDescendants(node, start)` (`part_002` lines 459-498). -/
def updateDescendants (s : PlannerState) (nodeIdx anchor : Nat) :
    Option PlannerState :=
  bfsAux anchor (fuelBound s) [nodeIdx] s

/-- Lines 285-336 of `part_002`, the `child != nullptr` path: record the goal
as a child of `sample_node`; if the goal's best parent is null or worse than
`sample_node`, make `sample_node` its best parent and run
`UpdateDescendants(sample_node, start_node)`; finally mark all ancestors of
`sample_node` viable. -/
def connectAndRewire (s : PlannerState) (sampleIdx goalIdx anchor : Nat)
    (sub : Traj) : Option PlannerState :=
  let s1 := pushChild s sampleIdx goalIdx sub
  let rewired :=
    if condCR s1 sampleIdx goalIdx then
      updateDescendants (setBestParent s1 goalIdx sampleIdx) sampleIdx anchor
    else some s1
  rewired.map (fun s2 => markViable s2 (some sampleIdx) (s2.size + 1))

/-- How one iteration of the main loop ends. -/
inductive IterResult where
  | continueLoop (s : PlannerState)
  | returnExtract (s : PlannerState) (st gl : Nat)
  | returnEmpty (s : PlannerState)

/-- One iteration of the `RecursivePlan` main loop (`part_002` lines
212-355), with the outcomes of sampling, `KnnSearch` and the `SubPlan` oracle
summarised as oracle data: `attachChoice` is the first neighbor (in
nearest-first order, not within `kEpsilon` of the sample) whose sub-plan was
non-empty, together with the sampled state and that sub-plan, or `none` when
every neighbor failed; `goalChoice` is the first viable goal within
`search_radius_` that a non-empty sub-plan connected to, with that sub-plan,
or `none` when no goal was connected. When the goal connection fails
(`child == nullptr`, lines 296-305), the recursive call of lines 302-304 is
commented out in the source, so the iteration only logs and the loop
continues with the state produced by the attach step. -/
def loopIteration (s : PlannerState) (attachChoice : Option (Nat × ℚ × Traj))
    (goalChoice : Option (Nat × Traj)) (outbound : Bool) : Option IterResult :=
  match attachChoice with
  | none => some (IterResult.continueLoop s)
  | some (parentIdx, sample, sub) =>
    let sampleIdx := s.size
    let s1 := attachNode s parentIdx sample sub
    match goalChoice with
    | none => some (IterResult.continueLoop s1)
    | some (goalIdx, gsub) =>
      let anchor := if outbound then 0 else s.goals.headD 0
      match connectAndRewire s1 sampleIdx goalIdx anchor gsub with
      | none => none
      | some s2 =>
        if outbound then some (IterResult.returnExtract s2 0 (s.goals.headD 0))
        else some (IterResult.returnEmpty s2)

/-- What `RecursivePlan` returns after the main loop exits on deadline
(`part_002` lines 357-371). `extractCall st gl` records the call
`ExtractTrajectory(st, gl)`. -/
inductive PlanOutcome where
  | emptyNotOutbound
  | emptyNoViableLoops
  | extractCall (st gl : Nat)
deriving DecidableEq

/-- The deadline tail of `RecursivePlan` (`part_002` lines 357-371): if not
outbound return the empty trajectory; if the graph's initial node has a null
best parent, log "No viable loops available." and return the empty
trajectory; otherwise return `ExtractTrajectory(start, start)`. -/
def timeoutReturn (s : PlannerState) (outbound : Bool) : PlanOutcome :=
  if !outbound then PlanOutcome.emptyNotOutbound
  else
    match (s.node 0).best_parent with
    | none => PlanOutcome.emptyNoViableLoops
    | some _ => PlanOutcome.extractCall 0 0

/-- The setup of `Plan` (`part_002` lines 176-191): a start node with
`time = start_time`, `cost_to_come = 0`, `is_viable = true` at index 0, and a
goal node with infinite time and cost, `is_viable = true`, at index 1, the
sole member of the goal set. -/
def initState (startS goalS startTime : ℚ) : PlannerState :=
  { size := 2
    node := fun i =>
      if i = 0 then
        { state := startS, time := some startTime, cost_to_come := some 0
          is_viable := true, best_parent := none
          children := [], trajs_to_children := [] }
      else
        { state := goalS, time := none, cost_to_come := none
          is_viable := true, best_parent := none
          children := [], trajs_to_children := [] }
    goals := [1]
    startTime := startTime }

/-- Graph states reachable by the planner's operations, starting from the
`Plan` setup: attaching a sample node to a neighbor of the graph (neighbors
come from the graph's `SearchableSet`, never from the goal set, and the
sub-plan is non-empty), and connecting an attached non-goal node to a node of
the goal set followed by the conditional rewiring and viability marking. The
anchor passed to `UpdateDescendants` is left arbitrary (the source passes the
initial node of the graph or of the goal set). -/
inductive Reachable : PlannerState → Prop where
  | init : ∀ startS goalS startTime, Reachable (initState startS goalS startTime)
  | attach : ∀ s parentIdx sample sub, Reachable s →
      parentIdx < s.size → parentIdx ∉ s.goals → 0 < sub.times.length →
      Reachable (attachNode s parentIdx sample sub)
  | connect : ∀ s sampleIdx goalIdx anchor sub s2, Reachable s →
      sampleIdx < s.size → sampleIdx ∉ s.goals → goalIdx ∈ s.goals →
      connectAndRewire s sampleIdx goalIdx anchor sub = some s2 →
      Reachable s2

/-- The inductive invariant of reachable graph states. The fields about
`children`, `goals` and indices say that the child relation is acyclic (it
admits the ranking `nodeRank`); `bpEdge` says every best-parent edge is the
reverse of a child edge; `bpSet` says every node that is someone's child has
a non-null best parent (so the condition of `UpdateDescendants` never
dereferences null in reachable states); `costTime` says every non-goal node
has finite time and cost with `cost_to_come = time - start_time`. -/
structure Inv (s : PlannerState) : Prop where
  goalsValid : ∀ g ∈ s.goals, g < s.size
  childValid : ∀ i, i < s.size → ∀ c ∈ (s.node i).children, c < s.size
  aligned : ∀ i, i < s.size →
      (s.node i).children.length = (s.node i).trajs_to_children.length
  goalNoChild : ∀ g ∈ s.goals, (s.node g).children = []
  edgeIncr : ∀ i, i < s.size → ∀ c ∈ (s.node i).children, c ∉ s.goals → i < c
  bpEdge : ∀ i, i < s.size → ∀ p, (s.node i).best_parent = some p →
      p < s.size ∧ i ∈ (s.node p).children
  bpSet : ∀ i, i < s.size → ∀ c ∈ (s.node i).children,
      (s.node c).best_parent ≠ none
  costTime : ∀ i, i < s.size → i ∉ s.goals →
      ∃ t c : ℚ, (s.node i).time = some t ∧ (s.node i).cost_to_come = some c ∧
        c = t - s.startTime

/-- The parts of a planner state the breadth-first rewiring never changes:
the arena size, the goal set, the start time, every `children` list and the
length of every `trajs_to_children` list. -/
structure StructEq (s t : PlannerState) : Prop where
  size_eq : t.size = s.size
  goals_eq : t.goals = s.goals
  start_eq : t.startTime = s.startTime
  children_eq : ∀ i, (t.node i).children = (s.node i).children
  trajsLen_eq : ∀ i, (t.node i).trajs_to_children.length =
      (s.node i).trajs_to_children.length

/-- Iterated best-parent lookup: `bpIterate s o k` follows `best_parent`
`k` times starting from `o`, absorbing at `none` (a root, or an index outside
the arena). -/
def bpIterate (s : PlannerState) : Option Nat → Nat → Option Nat
  | o, 0 => o
  | o, k + 1 =>
    bpIterate s (o.bind (fun i => if i < s.size then (s.node i).best_parent else none)) k

/-- Executable non-decreasing test on a list of times. -/
def sortedLe : List ℚ → Bool
  | [] => true
  | [_] => true
  | x :: y :: tl => decide (x ≤ y) && sortedLe (y :: tl)

/-- Executable strictly-increasing test on a list of times. -/
def sortedLt : List ℚ → Bool
  | [] => true
  | [_] => true
  | x :: y :: tl => decide (x < y) && sortedLt (y :: tl)

-- Basic facts about the constructor's repair loop.

theorem sortedLe_iff : ∀ l : List ℚ, sortedLe l = true ↔ List.Chain' (· ≤ ·) l := by
  intro l
  induction l with
  | nil => simp [sortedLe]
  | cons x xs ih =>
    cases xs with
    | nil => simp [sortedLe]
    | cons y tl =>
      simp only [sortedLe, Bool.and_eq_true, decide_eq_true_eq, List.chain'_cons]
      rw [ih]

theorem sortedLt_iff : ∀ l : List ℚ, sortedLt l = true ↔ List.Chain' (· < ·) l := by
  intro l
  induction l with
  | nil => simp [sortedLt]
  | cons x xs ih =>
    cases xs with
    | nil => simp [sortedLt]
    | cons y tl =>
      simp only [sortedLt, Bool.and_eq_true, decide_eq_true_eq, List.chain'_cons]
      rw [ih]

theorem fixLoop_length :
    ∀ (fuel : Nat) (times : List ℚ) (ii : Nat) (ts : List ℚ),
      fixLoop times ii fuel = some ts → ts.length = times.length := by
  intro fuel
  induction fuel with
  | zero =>
    intro times ii ts h
    simp only [fixLoop] at h
    cases h
    rfl
  | succ n ih =>
    intro times ii ts h
    simp only [fixLoop] at h
    by_cases hlt : ii < times.length
    · rw [if_pos hlt] at h
      by_cases hinv : times.getD (ii - 1) 0 > times.getD ii 0
      · rw [if_pos hinv] at h
        cases hv : times.get? (ii + 1) with
        | none => rw [hv] at h; cases h
        | some v =>
          rw [hv] at h
          have := ih (times.set ii v) (ii + 1) ts h
          simpa [List.length_set] using this
      · rw [if_neg hinv] at h
        exact ih times (ii + 1) ts h
    · rw [if_neg hlt] at h
      cases h
      rfl

theorem getD_eq_get {l : List ℚ} {i : Nat} (h : i < l.length) :
    l.getD i 0 = l.get ⟨i, h⟩ := by
  rw [List.getD_eq_getElem?_getD, List.getElem?_eq_getElem h]
  simp [List.get_eq_getElem]

theorem fixLoop_sorted :
    ∀ (fuel : Nat) (times : List ℚ) (ii : Nat), 1 ≤ ii →
      List.Chain' (· ≤ ·) times → fixLoop times ii fuel = some times := by
  intro fuel
  induction fuel with
  | zero => intro times ii _ _; rfl
  | succ n ih =>
    intro times ii hii hs
    simp only [fixLoop]
    by_cases hlt : ii < times.length
    · rw [if_pos hlt]
      have hle : times.getD (ii - 1) 0 ≤ times.getD ii 0 := by
        have h1 : ii - 1 + 1 = ii := Nat.succ_pred_eq_of_pos hii
        have h2 : ii - 1 < times.length - 1 := by omega
        have hstep := (List.chain'_iff_get.1 hs) (ii - 1) h2
        rw [getD_eq_get (by omega : ii - 1 < times.length),
            getD_eq_get (by omega : ii < times.length)]
        have h3 : (⟨ii - 1 + 1, by omega⟩ : Fin times.length) = ⟨ii, by omega⟩ := by
          apply Fin.ext; simp [h1]
        rw [h3] at hstep
        exact hstep
      rw [if_neg (not_lt.mpr hle)]
      exact ih times (ii + 1) (by omega) hs
    · rw [if_neg hlt]

-- Facts about `lowerBound` needed for the interpolation results.

theorem lowerBound_le_length (l : List ℚ) (t : ℚ) : lowerBound l t ≤ l.length := by
  induction l with
  | nil => simp [lowerBound]
  | cons x xs ih =>
    simp only [lowerBound, List.length_cons]
    by_cases h : t ≤ x
    · rw [if_pos h]; omega
    · rw [if_neg h]; omega

theorem lowerBound_sorted_self :
    ∀ (l : List ℚ), List.Chain' (· < ·) l → ∀ i, i < l.length →
      lowerBound l (l.getD i 0) = i := by
  intro l
  induction l with
  | nil => intro _ i h; simp at h
  | cons x xs ih =>
    intro hc i h
    cases i with
    | zero =>
      simp [lowerBound, List.getD_cons_zero]
    | succ j =>
      have hj : j < xs.length := by simpa using h
      have hx : x < xs.getD j 0 := by
        have hp : List.Pairwise (· < ·) (x :: xs) := List.chain'_iff_pairwise.1 hc
        have hm : xs.getD j 0 ∈ xs := by
          rw [getD_eq_get hj]
          exact List.get_mem xs j hj
        exact (List.pairwise_cons.1 hp).1 _ hm
      simp only [List.getD_cons_succ, lowerBound]
      rw [if_neg (not_le.mpr hx)]
      rw [ih hc.tail j hj]

-- ---------------------------------------------------------------------------
-- Claim C3 (construction invariants).
-- ---------------------------------------------------------------------------

/-- Claim C3 counterexample: the constructor, given `times = [3,1,2]`
(a single inversion at index 1), stores `[3,2,2]` — the repair overwrote the
offending timestamp with the next one, but the stored times are NOT
non-decreasing, refuting the claim that construction establishes the
monotonicity invariant for every input pair. -/
theorem claim3_counterexample :
    mkTrajectory [0, 0, 0] [3, 1, 2] = some ⟨[0, 0, 0], [3, 2, 2]⟩ ∧
      sortedLe [3, 2, 2] = false := by
  exact ⟨by decide, by decide⟩

/-- Claim C3 amended: whenever construction succeeds the stored lists have
equal length (the longer input truncated to the shorter); and when the
truncated input times are already non-decreasing, construction succeeds and
stores them unchanged (hence non-decreasing). The inversion repair itself
neither guarantees success (it reads out of range when the inversion is at
the last index, claim C7) nor restores monotonicity (the counterexample). -/
theorem claim3_amended (states times : List ℚ) :
    (∀ T, mkTrajectory states times = some T →
      T.states.length = T.times.length) ∧
    (sortedLe (times.take (min states.length times.length)) = true →
      mkTrajectory states times =
        some ⟨states.take (min states.length times.length),
              times.take (min states.length times.length)⟩) := by
  constructor
  · intro T h
    simp only [mkTrajectory, Option.map_eq_some'] at h
    obtain ⟨ts, hfix, hT⟩ := h
    have hlen := fixLoop_length _ _ _ _ hfix
    subst hT
    rw [hlen]
    simp only [List.length_take]
    rw [Nat.min_eq_left (Nat.min_le_left _ _),
        Nat.min_eq_left (Nat.min_le_right _ _)]
  · intro hsorted
    have hchain := (sortedLe_iff _).1 hsorted
    simp only [mkTrajectory, fixTimes]
    rw [fixLoop_sorted _ _ 1 le_rfl hchain]
    rfl

/-- Witness for the amended claim C3 at a concrete input. -/
theorem claim3_witness :
    mkTrajectory [5, 6] [1, 2] = some ⟨[5, 6], [1, 2]⟩ := by
  have h := (claim3_amended [5, 6] [1, 2]).2 (by decide)
  simpa using h

-- ---------------------------------------------------------------------------
-- Claim C4 (Interpolate on the empty trajectory).
-- ---------------------------------------------------------------------------

/-- Claim C4: the source performs no emptiness check. On the empty trajectory
`lower_bound` returns `begin() (= end())`, so `Interpolate` enters the
"interpolating before first time" branch and returns `states_.front()` of an
empty vector — an out-of-range read (`none` in the total embedding) — for
every query time. There is no `EMPTY_TRAJECTORY` error path in the code. -/
theorem claim4_empty_interpolate (t : ℚ) :
    Traj.Interpolate ⟨[], []⟩ t = (none, some InterpWarn.beforeFirst) := rfl

-- ---------------------------------------------------------------------------
-- Claim C7 (out-of-range read in the inversion repair).
-- ---------------------------------------------------------------------------

/-- Claim C7: for the input times `[1,0]` — an inversion at the last index —
the repair reads `times[ii+1]` with `ii+1` equal to the list length; under
the total embedding the lookup yields `none`, so the constructor fails. -/
theorem claim7_inversion_out_of_range :
    ([1, 0] : List ℚ).getD 0 0 > ([1, 0] : List ℚ).getD 1 0 ∧
      fixTimes [1, 0] = none ∧
      mkTrajectory [5, 6] [1, 0] = none := by
  exact ⟨by decide, by decide, by decide⟩

-- ---------------------------------------------------------------------------
-- Claim C8 (interpolation idempotence at sample times).
-- ---------------------------------------------------------------------------

/-- Claim C8 counterexample: the trajectory `states = [0,1]`, `times = [0,0]`
satisfies the construction invariants (equal lengths, non-decreasing times,
produced by the constructor itself), yet `Interpolate(t[1]) = Interpolate(0)`
returns `states[0] = 0`, which differs from `states[1] = 1` by far more than
`ε = 1e-8`. -/
theorem claim8_counterexample :
    mkTrajectory [0, 1] [0, 0] = some ⟨[0, 1], [0, 0]⟩ ∧
      sortedLe [0, 0] = true ∧
      (Traj.Interpolate ⟨[0, 1], [0, 0]⟩ (([0, 0] : List ℚ).getD 1 0)).fst =
        some 0 ∧
      ([0, 1] : List ℚ).getD 1 0 = 1 ∧
      ¬ |(0 : ℚ) - 1| ≤ 1 / 100000000 := by
  refine ⟨by decide, by decide, by decide, by decide, by norm_num⟩

/-- Claim C8 amended: for every non-empty trajectory with equal-length lists
and STRICTLY increasing times, `Interpolate(t[i])` returns exactly
`states[i]` (hence certainly within `ε = 1e-8`). With merely non-decreasing
times the property fails (see the counterexample). -/
theorem claim8_amended (tr : Traj)
    (hlen : tr.states.length = tr.times.length)
    (hsort : List.Chain' (· < ·) tr.times)
    (i : Nat) (hi : i < tr.times.length) :
    (tr.Interpolate (tr.times.getD i 0)).fst = tr.states.get? i := by
  have hlb : lowerBound tr.times (tr.times.getD i 0) = i :=
    lowerBound_sorted_self _ hsort i hi
  by_cases h0 : i = 0
  · subst h0
    simp only [Traj.Interpolate, hlb, if_pos rfl]
    exact (List.get?_zero tr.states).symm
  · have hne : i ≠ tr.times.length := Nat.ne_of_lt hi
    have h1 : i - 1 < tr.times.length := by omega
    have h1s : i - 1 < tr.states.length := by omega
    have his : i < tr.states.length := by omega
    have e1 := List.get?_eq_get h1
    have e2 := List.get?_eq_get hi
    have e3 := List.get?_eq_get h1s
    have e4 := List.get?_eq_get his
    have hlt : tr.times.get ⟨i - 1, h1⟩ < tr.times.get ⟨i, hi⟩ := by
      have h2 : i - 1 < tr.times.length - 1 := by omega
      have hstep := (List.chain'_iff_get.1 hsort) (i - 1) h2
      have h3 : (⟨i - 1 + 1, by omega⟩ : Fin tr.times.length) = ⟨i, hi⟩ := by
        apply Fin.ext; simp; omega
      rw [h3] at hstep
      exact hstep
    have hself : tr.times.getD i 0 = tr.times.get ⟨i, hi⟩ := getD_eq_get hi
    simp only [Traj.Interpolate, hlb, if_neg h0, if_neg hne, e1, e2, e3, e4]
    congr 1
    rw [hself, div_self (sub_ne_zero.mpr (ne_of_gt hlt))]
    ring

/-- Witness for the amended claim C8 at a concrete strictly-timed
trajectory. -/
theorem claim8_witness :
    (Traj.Interpolate ⟨[0, 1], [0, 1]⟩ (([0, 1] : List ℚ).getD 1 0)).fst =
      ([0, 1] : List ℚ).get? 1 :=
  claim8_amended ⟨[0, 1], [0, 1]⟩ (by decide) ((sortedLt_iff _).1 (by decide))
    1 (by decide)

-- ---------------------------------------------------------------------------
-- Planner state: basic read lemmas.
-- ---------------------------------------------------------------------------

theorem setNodeAt_size (s : PlannerState) (i : Nat) (n : PNode) :
    (setNodeAt s i n).size = s.size := rfl

theorem setNodeAt_goals (s : PlannerState) (i : Nat) (n : PNode) :
    (setNodeAt s i n).goals = s.goals := rfl

theorem setNodeAt_startTime (s : PlannerState) (i : Nat) (n : PNode) :
    (setNodeAt s i n).startTime = s.startTime := rfl

theorem setNodeAt_node_self (s : PlannerState) (i : Nat) (n : PNode) :
    (setNodeAt s i n).node i = n := by
  simp [setNodeAt]

theorem setNodeAt_node_ne (s : PlannerState) (i : Nat) (n : PNode) (j : Nat)
    (h : j ≠ i) : (setNodeAt s i n).node j = s.node j := by
  simp [setNodeAt, Function.update_noteq h]

theorem structEq_refl (s : PlannerState) : StructEq s s :=
  ⟨rfl, rfl, rfl, fun _ => rfl, fun _ => rfl⟩

theorem structEq_trans {s t u : PlannerState} (h1 : StructEq s t)
    (h2 : StructEq t u) : StructEq s u :=
  ⟨h2.size_eq.trans h1.size_eq, h2.goals_eq.trans h1.goals_eq,
   h2.start_eq.trans h1.start_eq,
   fun i => (h2.children_eq i).trans (h1.children_eq i),
   fun i => (h2.trajsLen_eq i).trans (h1.trajsLen_eq i)⟩

/-- Transfer the invariant across a state change that leaves everything the
invariant mentions untouched (only `is_viable` flags or trajectory contents
may differ). -/
theorem inv_transfer {s s2 : PlannerState} (hinv : Inv s)
    (hsize : s2.size = s.size) (hgoals : s2.goals = s.goals)
    (hstart : s2.startTime = s.startTime)
    (hch : ∀ j, (s2.node j).children = (s.node j).children)
    (htr : ∀ j, (s2.node j).trajs_to_children.length =
      (s.node j).trajs_to_children.length)
    (hbp : ∀ j, (s2.node j).best_parent = (s.node j).best_parent)
    (ht : ∀ j, (s2.node j).time = (s.node j).time)
    (hc : ∀ j, (s2.node j).cost_to_come = (s.node j).cost_to_come) : Inv s2 := by
  constructor
  · intro g hg
    rw [hsize]
    exact hinv.goalsValid g (hgoals ▸ hg)
  · intro i hi c hcmem
    rw [hsize]
    exact hinv.childValid i (hsize ▸ hi) c ((hch i) ▸ hcmem)
  · intro i hi
    rw [hch i, htr i]
    exact hinv.aligned i (hsize ▸ hi)
  · intro g hg
    rw [hch g]
    exact hinv.goalNoChild g (hgoals ▸ hg)
  · intro i hi c hcmem hcg
    exact hinv.edgeIncr i (hsize ▸ hi) c ((hch i) ▸ hcmem) (hgoals ▸ hcg)
  · intro i hi p hp
    rw [hbp i] at hp
    obtain ⟨h1, h2⟩ := hinv.bpEdge i (hsize ▸ hi) p hp
    exact ⟨hsize ▸ h1, (hch p) ▸ h2⟩
  · intro i hi c hcmem
    rw [hbp c]
    exact hinv.bpSet i (hsize ▸ hi) c ((hch i) ▸ hcmem)
  · intro i hi hig
    rw [ht i, hc i, hstart]
    exact hinv.costTime i (hsize ▸ hi) (hgoals ▸ hig)

-- ---------------------------------------------------------------------------
-- Attach step: reads and invariant preservation.
-- ---------------------------------------------------------------------------

theorem attachNode_size (s : PlannerState) (p : Nat) (sm : ℚ) (sub : Traj) :
    (attachNode s p sm sub).size = s.size + 1 := rfl

theorem attachNode_goals (s : PlannerState) (p : Nat) (sm : ℚ) (sub : Traj) :
    (attachNode s p sm sub).goals = s.goals := rfl

theorem attachNode_startTime (s : PlannerState) (p : Nat) (sm : ℚ) (sub : Traj) :
    (attachNode s p sm sub).startTime = s.startTime := rfl

theorem attachNode_node_fresh (s : PlannerState) (p : Nat) (sm : ℚ) (sub : Traj) :
    (attachNode s p sm sub).node s.size =
      { state := sm
        time := (s.node p).time.map (fun t => t + sub.Duration)
        cost_to_come := (s.node p).cost_to_come.map (fun c => c + Cost sub)
        is_viable := false
        best_parent := some p
        children := []
        trajs_to_children := [] } := by
  simp [attachNode, setNodeAt]

theorem attachNode_node_parent (s : PlannerState) (p : Nat) (sm : ℚ) (sub : Traj)
    (hp : p ≠ s.size) :
    (attachNode s p sm sub).node p =
      { s.node p with
          children := (s.node p).children ++ [s.size]
          trajs_to_children := (s.node p).trajs_to_children ++ [sub] } := by
  simp [attachNode, setNodeAt, Function.update_noteq hp]

theorem attachNode_node_other (s : PlannerState) (p : Nat) (sm : ℚ) (sub : Traj)
    (j : Nat) (h1 : j ≠ s.size) (h2 : j ≠ p) :
    (attachNode s p sm sub).node j = s.node j := by
  simp [attachNode, setNodeAt, Function.update_noteq h1, Function.update_noteq h2]

theorem attach_inv {s : PlannerState} {parentIdx : Nat} (sample : ℚ) (sub : Traj)
    (hinv : Inv s) (hp : parentIdx < s.size) (hpg : parentIdx ∉ s.goals) :
    Inv (attachNode s parentIdx sample sub) := by
  have hpne : parentIdx ≠ s.size := Nat.ne_of_lt hp
  have hfresh := attachNode_node_fresh s parentIdx sample sub
  have hparent := attachNode_node_parent s parentIdx sample sub hpne
  have hother := attachNode_node_other s parentIdx sample sub
  have hbp_keep : ∀ j, j ≠ s.size →
      ((attachNode s parentIdx sample sub).node j).best_parent =
        (s.node j).best_parent := by
    intro j hj
    by_cases hjp : j = parentIdx
    · subst hjp; rw [hparent]
    · rw [hother j hj hjp]
  have htc_keep : ∀ j, j ≠ s.size →
      ((attachNode s parentIdx sample sub).node j).time = (s.node j).time ∧
      ((attachNode s parentIdx sample sub).node j).cost_to_come =
        (s.node j).cost_to_come := by
    intro j hj
    by_cases hjp : j = parentIdx
    · subst hjp; rw [hparent]; exact ⟨rfl, rfl⟩
    · rw [hother j hj hjp]; exact ⟨rfl, rfl⟩
  have hch : ∀ j, j ≠ s.size → j ≠ parentIdx →
      ((attachNode s parentIdx sample sub).node j).children =
        (s.node j).children := by
    intro j h1 h2; rw [hother j h1 h2]
  constructor
  · -- goalsValid
    intro g hg
    rw [attachNode_size]
    exact Nat.lt_succ_of_lt (hinv.goalsValid g hg)
  · -- childValid
    intro i hi c hc
    rw [attachNode_size]
    by_cases hi1 : i = s.size
    · subst hi1; rw [hfresh] at hc; simp at hc
    · by_cases hi2 : i = parentIdx
      · subst hi2
        rw [hparent] at hc
        simp only [List.mem_append, List.mem_singleton] at hc
        rcases hc with hc | hc
        · exact Nat.lt_succ_of_lt (hinv.childValid i hp c hc)
        · subst hc; exact Nat.lt_succ_self _
      · rw [hch i hi1 hi2] at hc
        have hi3 : i < s.size := by
          rw [attachNode_size] at hi; omega
        exact Nat.lt_succ_of_lt (hinv.childValid i hi3 c hc)
  · -- aligned
    intro i hi
    by_cases hi1 : i = s.size
    · subst hi1; rw [hfresh]; rfl
    · by_cases hi2 : i = parentIdx
      · subst hi2
        rw [hparent]
        simp only [List.length_append, List.length_singleton]
        rw [hinv.aligned i hp]
      · rw [hother i hi1 hi2]
        have hi3 : i < s.size := by rw [attachNode_size] at hi; omega
        exact hinv.aligned i hi3
  · -- goalNoChild
    intro g hg
    have h1 : g ≠ s.size := Nat.ne_of_lt (hinv.goalsValid g hg)
    have h2 : g ≠ parentIdx := by
      intro h; exact hpg (h ▸ hg)
    rw [hch g h1 h2]
    exact hinv.goalNoChild g hg
  · -- edgeIncr
    intro i hi c hc hcg
    by_cases hi1 : i = s.size
    · subst hi1; rw [hfresh] at hc; simp at hc
    · by_cases hi2 : i = parentIdx
      · subst hi2
        rw [hparent] at hc
        simp only [List.mem_append, List.mem_singleton] at hc
        rcases hc with hc | hc
        · exact hinv.edgeIncr i hp c hc hcg
        · subst hc; exact hp
      · rw [hch i hi1 hi2] at hc
        have hi3 : i < s.size := by rw [attachNode_size] at hi; omega
        exact hinv.edgeIncr i hi3 c hc hcg
  · -- bpEdge
    intro i hi p2 hp2
    by_cases hi1 : i = s.size
    · subst hi1
      rw [hfresh] at hp2
      simp only at hp2
      cases hp2
      refine ⟨Nat.lt_succ_of_lt hp, ?_⟩
      rw [hparent]
      simp
    · rw [hbp_keep i hi1] at hp2
      have hi3 : i < s.size := by rw [attachNode_size] at hi; omega
      obtain ⟨hlt, hmem⟩ := hinv.bpEdge i hi3 p2 hp2
      refine ⟨Nat.lt_succ_of_lt hlt, ?_⟩
      by_cases hp2p : p2 = parentIdx
      · subst hp2p
        rw [hparent]
        simp only [List.mem_append]
        exact Or.inl hmem
      · rw [hch p2 (Nat.ne_of_lt hlt) hp2p]
        exact hmem
  · -- bpSet
    intro i hi c hc
    by_cases hi1 : i = s.size
    · subst hi1; rw [hfresh] at hc; simp at hc
    · by_cases hi2 : i = parentIdx
      · subst hi2
        rw [hparent] at hc
        simp only [List.mem_append, List.mem_singleton] at hc
        rcases hc with hc | hc
        · have hcs : c < s.size := hinv.childValid i hp c hc
          rw [hbp_keep c (Nat.ne_of_lt hcs)]
          exact hinv.bpSet i hp c hc
        · subst hc
          rw [hfresh]
          simp
      · rw [hch i hi1 hi2] at hc
        have hi3 : i < s.size := by rw [attachNode_size] at hi; omega
        have hcs : c < s.size := hinv.childValid i hi3 c hc
        rw [hbp_keep c (Nat.ne_of_lt hcs)]
        exact hinv.bpSet i hi3 c hc
  · -- costTime
    intro i hi hig
    rw [attachNode_startTime]
    by_cases hi1 : i = s.size
    · subst hi1
      rw [hfresh]
      obtain ⟨tp, cp, htp, hcp, hrel⟩ := hinv.costTime parentIdx hp hpg
      refine ⟨tp + sub.Duration, cp + Cost sub, ?_, ?_, ?_⟩
      · simp [htp]
      · simp [hcp]
      · simp only [Cost]
        rw [hrel]
        ring
    · have hi3 : i < s.size := by rw [attachNode_size] at hi; omega
      obtain ⟨ht, hc⟩ := htc_keep i hi1
      rw [ht, hc]
      exact hinv.costTime i hi3 hig

-- ---------------------------------------------------------------------------
-- Goal connection: reads and invariant preservation.
-- ---------------------------------------------------------------------------

theorem pushChild_node_self (s : PlannerState) (si gi : Nat) (sub : Traj) :
    (pushChild s si gi sub).node si =
      { s.node si with
          children := (s.node si).children ++ [gi]
          trajs_to_children := (s.node si).trajs_to_children ++ [sub] } := by
  simp [pushChild, setNodeAt]

theorem pushChild_node_ne (s : PlannerState) (si gi : Nat) (sub : Traj)
    (j : Nat) (h : j ≠ si) : (pushChild s si gi sub).node j = s.node j := by
  simp [pushChild, setNodeAt, Function.update_noteq h]

theorem setBestParent_node_self (s : PlannerState) (ci pi : Nat) :
    (setBestParent s ci pi).node ci =
      { s.node ci with best_parent := some pi } := by
  simp [setBestParent, setNodeAt]

theorem setBestParent_node_ne (s : PlannerState) (ci pi : Nat) (j : Nat)
    (h : j ≠ ci) : (setBestParent s ci pi).node j = s.node j := by
  simp [setBestParent, setNodeAt, Function.update_noteq h]

/-- Rebuild the invariant for a state that differs from `s` only at index
`childIdx`, whose `best_parent` was redirected to `cur` (an existing parent
of `childIdx` in the child relation) and whose time and cost were rewritten
consistently. This is the shape of every reattachment performed by
`UpdateDescendants`. -/
theorem inv_rewire {s s2 : PlannerState} (hinv : Inv s)
    (hsize : s2.size = s.size) (hgoals : s2.goals = s.goals)
    (hstart : s2.startTime = s.startTime)
    (hch : ∀ j, (s2.node j).children = (s.node j).children)
    (htr : ∀ j, (s2.node j).trajs_to_children.length =
      (s.node j).trajs_to_children.length)
    (childIdx cur : Nat) (hcur : cur < s.size)
    (hmem : childIdx ∈ (s.node cur).children)
    (hbp_ne : ∀ j, j ≠ childIdx →
      (s2.node j).best_parent = (s.node j).best_parent)
    (hbp_eq : (s2.node childIdx).best_parent = some cur)
    (htc_ne : ∀ j, j ≠ childIdx → (s2.node j).time = (s.node j).time ∧
      (s2.node j).cost_to_come = (s.node j).cost_to_come)
    (htc_eq : childIdx ∉ s.goals → ∃ t c : ℚ,
      (s2.node childIdx).time = some t ∧
      (s2.node childIdx).cost_to_come = some c ∧ c = t - s.startTime) :
    Inv s2 := by
  constructor
  · intro g hg
    rw [hsize]
    exact hinv.goalsValid g (hgoals ▸ hg)
  · intro i hi c hc
    rw [hsize]
    exact hinv.childValid i (hsize ▸ hi) c ((hch i) ▸ hc)
  · intro i hi
    rw [hch i, htr i]
    exact hinv.aligned i (hsize ▸ hi)
  · intro g hg
    rw [hch g]
    exact hinv.goalNoChild g (hgoals ▸ hg)
  · intro i hi c hc hcg
    exact hinv.edgeIncr i (hsize ▸ hi) c ((hch i) ▸ hc) (hgoals ▸ hcg)
  · intro i hi p hp
    by_cases hic : i = childIdx
    · subst hic
      rw [hbp_eq] at hp
      cases hp
      exact ⟨hsize ▸ hcur, (hch cur) ▸ hmem⟩
    · rw [hbp_ne i hic] at hp
      obtain ⟨h1, h2⟩ := hinv.bpEdge i (hsize ▸ hi) p hp
      exact ⟨hsize ▸ h1, (hch p) ▸ h2⟩
  · intro i hi c hc
    by_cases hcc : c = childIdx
    · subst hcc
      rw [hbp_eq]
      exact Option.some_ne_none _
    · rw [hbp_ne c hcc]
      exact hinv.bpSet i (hsize ▸ hi) c ((hch i) ▸ hc)
  · intro i hi hig
    rw [hstart]
    by_cases hic : i = childIdx
    · subst hic
      exact htc_eq (hgoals ▸ hig)
    · obtain ⟨h1, h2⟩ := htc_ne i hic
      rw [h1, h2]
      exact hinv.costTime i (hsize ▸ hi) (hgoals ▸ hig)

/-- Invariant preservation for the goal-connection push when the goal
already has a non-null best parent (the rewiring condition was false). -/
theorem pushChild_inv {s : PlannerState} {sampleIdx goalIdx : Nat} (sub : Traj)
    (hinv : Inv s) (hs : sampleIdx < s.size) (hsg : sampleIdx ∉ s.goals)
    (hg : goalIdx ∈ s.goals) (hbp : (s.node goalIdx).best_parent ≠ none) :
    Inv (pushChild s sampleIdx goalIdx sub) := by
  have hself := pushChild_node_self s sampleIdx goalIdx sub
  have hne := pushChild_node_ne s sampleIdx goalIdx sub
  have hgs : goalIdx < s.size := hinv.goalsValid goalIdx hg
  have hgne : goalIdx ≠ sampleIdx := by
    intro h; exact hsg (h ▸ hg)
  have hch_sub : ∀ j c, c ∈ (s.node j).children →
      c ∈ ((pushChild s sampleIdx goalIdx sub).node j).children := by
    intro j c hc
    by_cases hj : j = sampleIdx
    · subst hj; rw [hself]; simp only [List.mem_append]; exact Or.inl hc
    · rw [hne j hj]; exact hc
  have hbp_keep : ∀ j,
      ((pushChild s sampleIdx goalIdx sub).node j).best_parent =
        (s.node j).best_parent := by
    intro j
    by_cases hj : j = sampleIdx
    · subst hj; rw [hself]
    · rw [hne j hj]
  have htc_keep : ∀ j,
      ((pushChild s sampleIdx goalIdx sub).node j).time = (s.node j).time ∧
      ((pushChild s sampleIdx goalIdx sub).node j).cost_to_come =
        (s.node j).cost_to_come := by
    intro j
    by_cases hj : j = sampleIdx
    · subst hj; rw [hself]; exact ⟨rfl, rfl⟩
    · rw [hne j hj]; exact ⟨rfl, rfl⟩
  constructor
  · intro g hg2
    exact hinv.goalsValid g hg2
  · intro i hi c hc
    by_cases hj : i = sampleIdx
    · subst hj
      rw [hself] at hc
      simp only [List.mem_append, List.mem_singleton] at hc
      rcases hc with hc | hc
      · exact hinv.childValid i hi c hc
      · subst hc; exact hgs
    · rw [hne i hj] at hc
      exact hinv.childValid i hi c hc
  · intro i hi
    by_cases hj : i = sampleIdx
    · subst hj
      rw [hself]
      simp only [List.length_append, List.length_singleton]
      rw [hinv.aligned i hi]
    · rw [hne i hj]
      exact hinv.aligned i hi
  · intro g hg2
    have : g ≠ sampleIdx := by intro h; exact hsg (h ▸ hg2)
    rw [hne g this]
    exact hinv.goalNoChild g hg2
  · intro i hi c hc hcg
    by_cases hj : i = sampleIdx
    · subst hj
      rw [hself] at hc
      simp only [List.mem_append, List.mem_singleton] at hc
      rcases hc with hc | hc
      · exact hinv.edgeIncr i hi c hc hcg
      · subst hc; exact absurd hg hcg
    · rw [hne i hj] at hc
      exact hinv.edgeIncr i hi c hc hcg
  · intro i hi p hp
    rw [hbp_keep i] at hp
    obtain ⟨h1, h2⟩ := hinv.bpEdge i hi p hp
    exact ⟨h1, hch_sub p i h2⟩
  · intro i hi c hc
    rw [hbp_keep c]
    by_cases hj : i = sampleIdx
    · subst hj
      rw [hself] at hc
      simp only [List.mem_append, List.mem_singleton] at hc
      rcases hc with hc | hc
      · exact hinv.bpSet i hi c hc
      · subst hc; exact hbp
    · rw [hne i hj] at hc
      exact hinv.bpSet i hi c hc
  · intro i hi hig
    obtain ⟨h1, h2⟩ := htc_keep i
    rw [h1, h2]
    exact hinv.costTime i hi hig

/-- Invariant preservation for the goal-connection push followed by the
best-parent redirection of line 313 (the rewiring condition was true). -/
theorem pushChildBP_inv {s : PlannerState} {sampleIdx goalIdx : Nat} (sub : Traj)
    (hinv : Inv s) (hs : sampleIdx < s.size) (hsg : sampleIdx ∉ s.goals)
    (hg : goalIdx ∈ s.goals) :
    Inv (setBestParent (pushChild s sampleIdx goalIdx sub) goalIdx sampleIdx) := by
  have hgs : goalIdx < s.size := hinv.goalsValid goalIdx hg
  have hgne : goalIdx ≠ sampleIdx := by
    intro h; exact hsg (h ▸ hg)
  have hpself := pushChild_node_self s sampleIdx goalIdx sub
  have hpne := pushChild_node_ne s sampleIdx goalIdx sub
  have hbself := setBestParent_node_self (pushChild s sampleIdx goalIdx sub)
    goalIdx sampleIdx
  have hbne := setBestParent_node_ne (pushChild s sampleIdx goalIdx sub)
    goalIdx sampleIdx
  have hread_goal :
      ((setBestParent (pushChild s sampleIdx goalIdx sub) goalIdx sampleIdx).node
        goalIdx) = { s.node goalIdx with best_parent := some sampleIdx } := by
    rw [hbself, hpne goalIdx hgne]
  have hread_sample :
      ((setBestParent (pushChild s sampleIdx goalIdx sub) goalIdx sampleIdx).node
        sampleIdx) =
      { s.node sampleIdx with
          children := (s.node sampleIdx).children ++ [goalIdx]
          trajs_to_children := (s.node sampleIdx).trajs_to_children ++ [sub] } := by
    rw [hbne sampleIdx (fun h => hgne h.symm), hpself]
  have hread_other : ∀ j, j ≠ goalIdx → j ≠ sampleIdx →
      ((setBestParent (pushChild s sampleIdx goalIdx sub) goalIdx sampleIdx).node
        j) = s.node j := by
    intro j h1 h2
    rw [hbne j h1, hpne j h2]
  have hch : ∀ j,
      ((setBestParent (pushChild s sampleIdx goalIdx sub) goalIdx
        sampleIdx).node j).children =
      if j = sampleIdx then (s.node j).children ++ [goalIdx]
      else (s.node j).children := by
    intro j
    by_cases h2 : j = sampleIdx
    · subst h2; rw [hread_sample, if_pos rfl]
    · rw [if_neg h2]
      by_cases h1 : j = goalIdx
      · subst h1; rw [hread_goal]
      · rw [hread_other j h1 h2]
  have hch_sub : ∀ j c, c ∈ (s.node j).children →
      c ∈ ((setBestParent (pushChild s sampleIdx goalIdx sub) goalIdx
        sampleIdx).node j).children := by
    intro j c hc
    rw [hch j]
    by_cases h2 : j = sampleIdx
    · rw [if_pos h2]; simp only [List.mem_append]; exact Or.inl hc
    · rw [if_neg h2]; exact hc
  have hbp_keep : ∀ j, j ≠ goalIdx →
      ((setBestParent (pushChild s sampleIdx goalIdx sub) goalIdx
        sampleIdx).node j).best_parent = (s.node j).best_parent := by
    intro j h1
    by_cases h2 : j = sampleIdx
    · subst h2; rw [hread_sample]
    · rw [hread_other j h1 h2]
  have htc_keep : ∀ j,
      ((setBestParent (pushChild s sampleIdx goalIdx sub) goalIdx
        sampleIdx).node j).time = (s.node j).time ∧
      ((setBestParent (pushChild s sampleIdx goalIdx sub) goalIdx
        sampleIdx).node j).cost_to_come = (s.node j).cost_to_come := by
    intro j
    by_cases h1 : j = goalIdx
    · subst h1; rw [hread_goal]; exact ⟨rfl, rfl⟩
    · by_cases h2 : j = sampleIdx
      · subst h2; rw [hread_sample]; exact ⟨rfl, rfl⟩
      · rw [hread_other j h1 h2]; exact ⟨rfl, rfl⟩
  constructor
  · intro g hg2
    exact hinv.goalsValid g hg2
  · intro i hi c hc
    rw [hch i] at hc
    by_cases h2 : i = sampleIdx
    · rw [if_pos h2] at hc
      simp only [List.mem_append, List.mem_singleton] at hc
      rcases hc with hc | hc
      · exact hinv.childValid i hi c hc
      · subst hc; exact hgs
    · rw [if_neg h2] at hc
      exact hinv.childValid i hi c hc
  · intro i hi
    by_cases h2 : i = sampleIdx
    · subst h2
      rw [hread_sample]
      simp only [List.length_append, List.length_singleton]
      rw [hinv.aligned i hi]
    · by_cases h1 : i = goalIdx
      · subst h1; rw [hread_goal]; exact hinv.aligned i hi
      · rw [hread_other i h1 h2]; exact hinv.aligned i hi
  · intro g hg2
    have h2 : g ≠ sampleIdx := by intro h; exact hsg (h ▸ hg2)
    rw [hch g, if_neg h2]
    exact hinv.goalNoChild g hg2
  · intro i hi c hc hcg
    rw [hch i] at hc
    by_cases h2 : i = sampleIdx
    · rw [if_pos h2] at hc
      simp only [List.mem_append, List.mem_singleton] at hc
      rcases hc with hc | hc
      · exact hinv.edgeIncr i hi c hc hcg
      · subst hc; exact absurd hg hcg
    · rw [if_neg h2] at hc
      exact hinv.edgeIncr i hi c hc hcg
  · intro i hi p hp
    by_cases h1 : i = goalIdx
    · subst h1
      rw [hread_goal] at hp
      simp only at hp
      cases hp
      refine ⟨hs, ?_⟩
      rw [hch sampleIdx, if_pos rfl]
      simp
    · rw [hbp_keep i h1] at hp
      obtain ⟨hlt, hmem⟩ := hinv.bpEdge i hi p hp
      exact ⟨hlt, hch_sub p i hmem⟩
  · intro i hi c hc
    by_cases h1 : c = goalIdx
    · subst h1
      rw [hread_goal]
      exact Option.some_ne_none _
    · rw [hbp_keep c h1]
      rw [hch i] at hc
      by_cases h2 : i = sampleIdx
      · rw [if_pos h2] at hc
        simp only [List.mem_append, List.mem_singleton] at hc
        rcases hc with hc | hc
        · exact hinv.bpSet i hi c hc
        · exact absurd hc h1
      · rw [if_neg h2] at hc
        exact hinv.bpSet i hi c hc
  · intro i hi hig
    obtain ⟨h1, h2⟩ := htc_keep i
    rw [h1, h2]
    exact hinv.costTime i hi hig

/-- The viability-marking loop only flips `is_viable` flags, so it preserves
the invariant. -/
theorem markViable_inv : ∀ (fuel : Nat) (o : Option Nat) (s : PlannerState),
    Inv s → Inv (markViable s o fuel) := by
  intro fuel
  induction fuel with
  | zero =>
    intro o s h
    cases o <;> exact h
  | succ n ih =>
    intro o s h
    cases o with
    | none => exact h
    | some p =>
      simp only [markViable]
      by_cases hv : (s.node p).is_viable
      · rw [if_pos hv]; exact h
      · rw [if_neg hv]
        apply ih
        refine inv_transfer h rfl rfl rfl ?_ ?_ ?_ ?_ ?_
        · intro j
          by_cases hj : j = p
          · subst hj; rw [setNodeAt_node_self]
          · rw [setNodeAt_node_ne _ _ _ j hj]
        · intro j
          by_cases hj : j = p
          · subst hj; rw [setNodeAt_node_self]
          · rw [setNodeAt_node_ne _ _ _ j hj]
        · intro j
          by_cases hj : j = p
          · subst hj; rw [setNodeAt_node_self]
          · rw [setNodeAt_node_ne _ _ _ j hj]
        · intro j
          by_cases hj : j = p
          · subst hj; rw [setNodeAt_node_self]
          · rw [setNodeAt_node_ne _ _ _ j hj]
        · intro j
          by_cases hj : j = p
          · subst hj; rw [setNodeAt_node_self]
          · rw [setNodeAt_node_ne _ _ _ j hj]

-- ---------------------------------------------------------------------------
-- The breadth-first rewiring: per-child lemmas.
-- ---------------------------------------------------------------------------

theorem trajUpd_node_self (s : PlannerState) (cur ii : Nat) (tr2 : Traj) :
    (trajUpd s cur ii tr2).node cur =
      { s.node cur with
          trajs_to_children := (s.node cur).trajs_to_children.set ii tr2 } := by
  simp [trajUpd, setNodeAt]

theorem trajUpd_node_ne (s : PlannerState) (cur ii : Nat) (tr2 : Traj)
    (j : Nat) (h : j ≠ cur) : (trajUpd s cur ii tr2).node j = s.node j := by
  simp [trajUpd, setNodeAt, Function.update_noteq h]

theorem reattach_node_self (s : PlannerState) (ci cu : Nat) (t c : Option ℚ)
    {s2 : PlannerState} (h : reattach s ci cu t c = some s2) :
    s2.node ci =
      { s.node ci with
          best_parent := some cu
          time := t
          cost_to_come := c } := by
  simp only [reattach, Option.some.injEq] at h
  subst h
  rw [setNodeAt_node_self]

theorem reattach_node_ne (s : PlannerState) (ci cu : Nat) (t c : Option ℚ)
    {s2 : PlannerState} (h : reattach s ci cu t c = some s2)
    (j : Nat) (hj : j ≠ ci) : s2.node j = s.node j := by
  simp only [reattach, Option.some.injEq] at h
  subst h
  rw [setNodeAt_node_ne _ _ _ _ hj]

theorem reattach_size (s : PlannerState) (ci cu : Nat) (t c : Option ℚ)
    {s2 : PlannerState} (h : reattach s ci cu t c = some s2) :
    s2.size = s.size := by
  simp only [reattach, Option.some.injEq] at h
  subst h
  rfl

theorem reattach_goals (s : PlannerState) (ci cu : Nat) (t c : Option ℚ)
    {s2 : PlannerState} (h : reattach s ci cu t c = some s2) :
    s2.goals = s.goals ∧ s2.startTime = s.startTime := by
  simp only [reattach, Option.some.injEq] at h
  subst h
  exact ⟨rfl, rfl⟩

theorem child_ne_cur {s : PlannerState} {cur childIdx : Nat} (hinv : Inv s)
    (hcur : cur < s.size) (hmem : childIdx ∈ (s.node cur).children) :
    childIdx ≠ cur := by
  intro h
  rw [h] at hmem
  by_cases hg : cur ∈ s.goals
  · rw [hinv.goalNoChild cur hg] at hmem
    simp at hmem
  · exact absurd (hinv.edgeIncr cur hcur cur hmem hg) (lt_irrefl _)

theorem cur_not_goal {s : PlannerState} {cur childIdx : Nat} (hinv : Inv s)
    (hmem : childIdx ∈ (s.node cur).children) : cur ∉ s.goals := by
  intro hg
  rw [hinv.goalNoChild cur hg] at hmem
  simp at hmem

theorem processChild_pres {s s2 : PlannerState} {cur ii : Nat} (hinv : Inv s)
    (hcur : cur < s.size) (h : processChild s cur ii = some s2) :
    Inv s2 ∧ StructEq s s2 := by
  cases hc : (s.node cur).children.get? ii with
  | none => simp only [processChild, hc] at h; exact Option.noConfusion h
  | some childIdx =>
  cases ht : (s.node cur).trajs_to_children.get? ii with
  | none => simp only [processChild, hc, ht] at h; exact Option.noConfusion h
  | some tr =>
  cases htime : (s.node cur).time with
  | none =>
    simp only [processChild, hc, ht, htime] at h
    exact Option.noConfusion h
  | some t0 =>
  have hmem : childIdx ∈ (s.node cur).children := List.get?_mem hc
  have hne : childIdx ≠ cur := child_ne_cur hinv hcur hmem
  have hcurg : cur ∉ s.goals := cur_not_goal hinv hmem
  cases hbp : (s.node childIdx).best_parent with
  | none =>
    simp only [processChild, hc, ht, htime, trajUpd_node_ne _ _ _ _ _ hne,
      hbp] at h
    exact Option.noConfusion h
  | some bp0 =>
  simp only [processChild, hc, ht, htime, trajUpd_node_ne _ _ _ _ _ hne,
    hbp] at h
  have hsize0 := reattach_size _ _ _ _ _ h
  have hsize2 : s2.size = s.size := hsize0
  have hgs := reattach_goals _ _ _ _ _ h
  have hgoals2 : s2.goals = s.goals := hgs.1
  have hstart2 : s2.startTime = s.startTime := hgs.2
  have hselfr := reattach_node_self _ _ _ _ _ h
  have hner := reattach_node_ne _ _ _ _ _ h
  have hcostcur : ((trajUpd s cur ii (tr.ResetFirstTime t0)).node cur).cost_to_come
      = (s.node cur).cost_to_come := by
    rw [trajUpd_node_self]
  have hreads : ∀ j, j ≠ childIdx → s2.node j =
      if j = cur then
        { s.node cur with
            trajs_to_children :=
              (s.node cur).trajs_to_children.set ii (tr.ResetFirstTime t0) }
      else s.node j := by
    intro j hj
    rw [hner j hj]
    by_cases hjc : j = cur
    · rw [if_pos hjc, hjc, trajUpd_node_self]
    · rw [if_neg hjc, trajUpd_node_ne _ _ _ _ _ hjc]
  have hreadc : s2.node childIdx =
      { s.node childIdx with
          best_parent := some cur
          time := some (t0 + (tr.ResetFirstTime t0).Duration)
          cost_to_come := (s.node cur).cost_to_come.map
            (fun c => c + Cost (tr.ResetFirstTime t0)) } := by
    rw [hselfr, trajUpd_node_ne _ _ _ _ _ hne, hcostcur]
  have hch : ∀ j, (s2.node j).children = (s.node j).children := by
    intro j
    by_cases hj : j = childIdx
    · subst hj; rw [hreadc]
    · rw [hreads j hj]
      by_cases hjc : j = cur
      · rw [if_pos hjc, hjc]
      · rw [if_neg hjc]
  have htrl : ∀ j, (s2.node j).trajs_to_children.length =
      (s.node j).trajs_to_children.length := by
    intro j
    by_cases hj : j = childIdx
    · subst hj; rw [hreadc]
    · rw [hreads j hj]
      by_cases hjc : j = cur
      · rw [if_pos hjc, hjc]
        simp [List.length_set]
      · rw [if_neg hjc]
  refine ⟨?_, hsize2, hgoals2, hstart2, hch, htrl⟩
  refine inv_rewire hinv hsize2 hgoals2 hstart2 hch htrl childIdx cur hcur hmem
    ?_ ?_ ?_ ?_
  · intro j hj
    rw [hreads j hj]
    by_cases hjc : j = cur
    · rw [if_pos hjc, hjc]
    · rw [if_neg hjc]
  · rw [hreadc]
  · intro j hj
    rw [hreads j hj]
    by_cases hjc : j = cur
    · rw [if_pos hjc, hjc]; exact ⟨rfl, rfl⟩
    · rw [if_neg hjc]; exact ⟨rfl, rfl⟩
  · intro _
    obtain ⟨tc, cc, htc, hcc, hrel⟩ := hinv.costTime cur hcur hcurg
    have htct : tc = t0 := by
      rw [htime] at htc
      exact (Option.some.inj htc).symm
    subst htct
    refine ⟨tc + (tr.ResetFirstTime tc).Duration,
      cc + Cost (tr.ResetFirstTime tc), ?_, ?_, ?_⟩
    · rw [hreadc]
    · rw [hreadc]
      simp only [hcc, Option.map_some']
    · simp only [Cost]
      rw [hrel]
      ring

theorem processChild_total {s : PlannerState} {cur ii : Nat} (hinv : Inv s)
    (hcur : cur < s.size) (hii : ii < (s.node cur).children.length) :
    ∃ s2, processChild s cur ii = some s2 := by
  have hc : (s.node cur).children.get? ii =
      some ((s.node cur).children.get ⟨ii, hii⟩) := List.get?_eq_get hii
  have hiit : ii < (s.node cur).trajs_to_children.length := by
    rw [← hinv.aligned cur hcur]; exact hii
  have ht : (s.node cur).trajs_to_children.get? ii =
      some ((s.node cur).trajs_to_children.get ⟨ii, hiit⟩) :=
    List.get?_eq_get hiit
  have hmem : (s.node cur).children.get ⟨ii, hii⟩ ∈ (s.node cur).children :=
    List.get?_mem hc
  have hcurg : cur ∉ s.goals := cur_not_goal hinv hmem
  obtain ⟨t0, c0, htime, hcost, hr⟩ := hinv.costTime cur hcur hcurg
  have hne : (s.node cur).children.get ⟨ii, hii⟩ ≠ cur :=
    child_ne_cur hinv hcur hmem
  have hbpne := hinv.bpSet cur hcur _ hmem
  obtain ⟨bp0, hbp⟩ := Option.ne_none_iff_exists'.mp hbpne
  refine Option.isSome_iff_exists.mp ?_
  simp only [processChild, hc, ht, htime]
  rw [trajUpd_node_ne _ _ _ _ _ hne, hbp]
  simp [reattach]

theorem processChildrenAux_pres :
    ∀ (k : Nat) (s s2 : PlannerState) (cur ii : Nat), Inv s → cur < s.size →
      processChildrenAux s cur ii k = some s2 → Inv s2 ∧ StructEq s s2 := by
  intro k
  induction k with
  | zero =>
    intro s s2 cur ii hinv _ h
    simp only [processChildrenAux, Option.some.injEq] at h
    subst h
    exact ⟨hinv, structEq_refl s⟩
  | succ n ih =>
    intro s s2 cur ii hinv hcur h
    cases hpc : processChild s cur ii with
    | none =>
      simp only [processChildrenAux, hpc] at h
      exact Option.noConfusion h
    | some s1 =>
      simp only [processChildrenAux, hpc] at h
      obtain ⟨hinv1, hse1⟩ := processChild_pres hinv hcur hpc
      have hcur1 : cur < s1.size := by rw [hse1.size_eq]; exact hcur
      obtain ⟨hinv2, hse2⟩ := ih s1 s2 cur (ii + 1) hinv1 hcur1 h
      exact ⟨hinv2, structEq_trans hse1 hse2⟩

theorem processChildrenAux_total :
    ∀ (k : Nat) (s : PlannerState) (cur ii : Nat), Inv s → cur < s.size →
      ii + k = (s.node cur).children.length →
      ∃ s2, processChildrenAux s cur ii k = some s2 ∧ Inv s2 ∧ StructEq s s2 := by
  intro k
  induction k with
  | zero =>
    intro s cur ii hinv _ _
    exact ⟨s, rfl, hinv, structEq_refl s⟩
  | succ n ih =>
    intro s cur ii hinv hcur hlen
    have hii : ii < (s.node cur).children.length := by omega
    obtain ⟨s1, hpc⟩ := processChild_total hinv hcur hii
    obtain ⟨hinv1, hse1⟩ := processChild_pres hinv hcur hpc
    have hcur1 : cur < s1.size := by rw [hse1.size_eq]; exact hcur
    have hlen1 : ii + 1 + n = (s1.node cur).children.length := by
      rw [hse1.children_eq cur]; omega
    obtain ⟨s2, hrec, hinv2, hse2⟩ := ih s1 cur (ii + 1) hinv1 hcur1 hlen1
    refine ⟨s2, ?_, hinv2, structEq_trans hse1 hse2⟩
    simp only [processChildrenAux, hpc]
    exact hrec

theorem processChildren_pres {s s2 : PlannerState} {cur : Nat} (hinv : Inv s)
    (hcur : cur < s.size) (h : processChildren s cur = some s2) :
    Inv s2 ∧ StructEq s s2 :=
  processChildrenAux_pres _ s s2 cur 0 hinv hcur h

theorem processChildren_total {s : PlannerState} {cur : Nat} (hinv : Inv s)
    (hcur : cur < s.size) :
    ∃ s2, processChildren s cur = some s2 ∧ Inv s2 ∧ StructEq s s2 :=
  processChildrenAux_total _ s cur 0 hinv hcur (Nat.zero_add _)

theorem bfsAux_pres (anchor : Nat) :
    ∀ (fuel : Nat) (q : List Nat) (s s2 : PlannerState), Inv s →
      (∀ j ∈ q, j < s.size) → bfsAux anchor fuel q s = some s2 →
      Inv s2 ∧ StructEq s s2 := by
  intro fuel
  induction fuel with
  | zero =>
    intro q s s2 hinv _ h
    cases q with
    | nil =>
      simp only [bfsAux, Option.some.injEq] at h
      subst h
      exact ⟨hinv, structEq_refl s⟩
    | cons a t =>
      simp only [bfsAux] at h
      exact Option.noConfusion h
  | succ n ih =>
    intro q s s2 hinv hq h
    cases q with
    | nil =>
      simp only [bfsAux, Option.some.injEq] at h
      subst h
      exact ⟨hinv, structEq_refl s⟩
    | cons cur rest =>
      by_cases hca : cur = anchor
      · simp only [bfsAux, if_pos hca] at h
        exact ih rest s s2 hinv (fun j hj => hq j (List.mem_cons_of_mem _ hj)) h
      · have hcur : cur < s.size := hq cur (List.mem_cons_self _ _)
        cases hpc : processChildren s cur with
        | none =>
          simp only [bfsAux, if_neg hca, hpc] at h
          exact Option.noConfusion h
        | some s1 =>
          simp only [bfsAux, if_neg hca, hpc] at h
          obtain ⟨hinv1, hse1⟩ := processChildren_pres hinv hcur hpc
          have hval : ∀ j ∈ rest ++ (s.node cur).children, j < s1.size := by
            intro j hj
            rw [hse1.size_eq]
            rcases List.mem_append.1 hj with hj | hj
            · exact hq j (List.mem_cons_of_mem _ hj)
            · exact hinv.childValid cur hcur j hj
          obtain ⟨hinv2, hse2⟩ := ih (rest ++ (s.node cur).children) s1 s2
            hinv1 hval h
          exact ⟨hinv2, structEq_trans hse1 hse2⟩

-- ---------------------------------------------------------------------------
-- Termination of the breadth-first rewiring.
-- ---------------------------------------------------------------------------

theorem kidsBound_pos (s : PlannerState) : 0 < kidsBound s := Nat.succ_pos _

theorem childrenLen_lt_kidsBound {s : PlannerState} {i : Nat} (hi : i < s.size) :
    (s.node i).children.length < kidsBound s := by
  have hmem : (s.node i).children.length ∈
      (List.range s.size).map (fun j => (s.node j).children.length) :=
    List.mem_map.2 ⟨i, List.mem_range.2 hi, rfl⟩
  have hle := List.le_sum_of_mem hmem
  exact Nat.lt_succ_of_le hle

theorem rank_le_size {s : PlannerState} {i : Nat} (hi : i < s.size) :
    nodeRank s i ≤ s.size := by
  unfold nodeRank
  by_cases hg : i ∈ s.goals
  · rw [if_pos hg]
  · rw [if_neg hg]; omega

theorem rank_edge {s : PlannerState} (hinv : Inv s) {i c : Nat} (hi : i < s.size)
    (hc : c ∈ (s.node i).children) : nodeRank s i < nodeRank s c := by
  have hig : i ∉ s.goals := cur_not_goal hinv hc
  unfold nodeRank
  rw [if_neg hig]
  by_cases hcg : c ∈ s.goals
  · rw [if_pos hcg]; exact hi
  · rw [if_neg hcg]; exact hinv.edgeIncr i hi c hc hcg

theorem nodeW_pos (s : PlannerState) (i : Nat) : 0 < nodeW s i :=
  pow_pos (kidsBound_pos s) _

theorem childW_lt {s : PlannerState} (hinv : Inv s) {cur : Nat}
    (hcur : cur < s.size) :
    (((s.node cur).children).map (nodeW s)).sum < nodeW s cur := by
  have hB : 0 < kidsBound s := kidsBound_pos s
  have hbound : ∀ x ∈ ((s.node cur).children).map (nodeW s),
      x ≤ kidsBound s ^ (s.size - nodeRank s cur) := by
    intro x hx
    obtain ⟨c, hcmem, rfl⟩ := List.mem_map.1 hx
    have h1 : nodeRank s cur < nodeRank s c := rank_edge hinv hcur hcmem
    have h2 : nodeRank s c ≤ s.size :=
      rank_le_size (hinv.childValid cur hcur c hcmem)
    unfold nodeW
    exact Nat.pow_le_pow_right hB (by omega)
  have hsum := List.sum_le_card_nsmul _ _ hbound
  have hlenB : (s.node cur).children.length < kidsBound s :=
    childrenLen_lt_kidsBound hcur
  have hexp : s.size + 1 - nodeRank s cur = (s.size - nodeRank s cur) + 1 := by
    have := rank_le_size hcur
    omega
  calc (((s.node cur).children).map (nodeW s)).sum
      ≤ (s.node cur).children.length *
          kidsBound s ^ (s.size - nodeRank s cur) := by
        simpa [smul_eq_mul] using hsum
    _ < kidsBound s * kidsBound s ^ (s.size - nodeRank s cur) :=
        Nat.mul_lt_mul_of_lt_of_le hlenB (le_refl _)
          (pow_pos hB _)
    _ = nodeW s cur := by
        unfold nodeW
        rw [hexp, pow_succ']

theorem queueW_cons (s : PlannerState) (a : Nat) (q : List Nat) :
    queueW s (a :: q) = nodeW s a + queueW s q := by
  simp [queueW]

theorem queueW_append (s : PlannerState) (q1 q2 : List Nat) :
    queueW s (q1 ++ q2) = queueW s q1 + queueW s q2 := by
  simp [queueW]

theorem kidsBound_structEq {s s1 : PlannerState} (hse : StructEq s s1) :
    kidsBound s1 = kidsBound s := by
  unfold kidsBound
  rw [hse.size_eq]
  congr 1
  congr 1
  apply List.map_congr_left
  intro i _
  rw [hse.children_eq i]

theorem nodeW_structEq {s s1 : PlannerState} (hse : StructEq s s1) (i : Nat) :
    nodeW s1 i = nodeW s i := by
  unfold nodeW nodeRank
  rw [kidsBound_structEq hse, hse.goals_eq, hse.size_eq]

theorem queueW_structEq {s s1 : PlannerState} (hse : StructEq s s1)
    (q : List Nat) : queueW s1 q = queueW s q := by
  unfold queueW
  congr 1
  apply List.map_congr_left
  intro i _
  exact nodeW_structEq hse i

theorem bfsAux_total (anchor : Nat) :
    ∀ (fuel : Nat) (q : List Nat) (s : PlannerState), Inv s →
      (∀ j ∈ q, j < s.size) → queueW s q ≤ fuel →
      ∃ s2, bfsAux anchor fuel q s = some s2 := by
  intro fuel
  induction fuel with
  | zero =>
    intro q s _ _ hw
    cases q with
    | nil => exact ⟨s, rfl⟩
    | cons cur rest =>
      exfalso
      have h1 := nodeW_pos s cur
      rw [queueW_cons] at hw
      omega
  | succ n ih =>
    intro q s hinv hq hw
    cases q with
    | nil => exact ⟨s, rfl⟩
    | cons cur rest =>
      rw [queueW_cons] at hw
      have hwpos := nodeW_pos s cur
      by_cases hca : cur = anchor
      · obtain ⟨s2, h2⟩ := ih rest s hinv
          (fun j hj => hq j (List.mem_cons_of_mem _ hj)) (by omega)
        refine ⟨s2, ?_⟩
        simp only [bfsAux, if_pos hca]
        exact h2
      · have hcur : cur < s.size := hq cur (List.mem_cons_self _ _)
        obtain ⟨s1, hpc, hinv1, hse1⟩ := processChildren_total hinv hcur
        have hval : ∀ j ∈ rest ++ (s.node cur).children, j < s1.size := by
          intro j hj
          rw [hse1.size_eq]
          rcases List.mem_append.1 hj with hj | hj
          · exact hq j (List.mem_cons_of_mem _ hj)
          · exact hinv.childValid cur hcur j hj
        have hmeas : queueW s1 (rest ++ (s.node cur).children) ≤ n := by
          rw [queueW_structEq hse1, queueW_append]
          have hlt := childW_lt hinv hcur
          have hqc : queueW s ((s.node cur).children) =
              (((s.node cur).children).map (nodeW s)).sum := rfl
          omega
        obtain ⟨s2, h2⟩ := ih (rest ++ (s.node cur).children) s1 hinv1 hval hmeas
        refine ⟨s2, ?_⟩
        simp only [bfsAux, if_neg hca, hpc]
        exact h2

theorem updateDescendants_total {s : PlannerState} (hinv : Inv s)
    (i anchor : Nat) (hi : i < s.size) :
    ∃ s2, updateDescendants s i anchor = some s2 := by
  apply bfsAux_total anchor (fuelBound s) [i] s hinv
  · intro j hj
    rw [List.mem_singleton] at hj
    subst hj
    exact hi
  · have : queueW s [i] = nodeW s i := by simp [queueW]
    rw [this]
    unfold nodeW fuelBound
    exact Nat.pow_le_pow_right (kidsBound_pos s) (Nat.sub_le _ _)

theorem updateDescendants_pres {s s2 : PlannerState} (hinv : Inv s)
    {i anchor : Nat} (hi : i < s.size)
    (h : updateDescendants s i anchor = some s2) : Inv s2 ∧ StructEq s s2 := by
  apply bfsAux_pres anchor (fuelBound s) [i] s s2 hinv ?_ h
  intro j hj
  rw [List.mem_singleton] at hj
  subst hj
  exact hi

-- ---------------------------------------------------------------------------
-- Reachable states satisfy the invariant.
-- ---------------------------------------------------------------------------

theorem inv_init (ss gs t : ℚ) : Inv (initState ss gs t) := by
  constructor
  · intro g hg
    simp only [initState] at hg ⊢
    rw [List.mem_singleton] at hg
    subst hg
    omega
  · intro i hi c hc
    simp only [initState] at hc
    by_cases h0 : i = 0 <;> simp [h0] at hc
  · intro i hi
    simp only [initState]
    by_cases h0 : i = 0 <;> simp [h0]
  · intro g hg
    simp only [initState] at hg ⊢
    rw [List.mem_singleton] at hg
    subst hg
    simp
  · intro i hi c hc hcg
    simp only [initState] at hc
    by_cases h0 : i = 0 <;> simp [h0] at hc
  · intro i hi p hp
    simp only [initState] at hp
    by_cases h0 : i = 0 <;> simp [h0] at hp
  · intro i hi c hc
    simp only [initState] at hc
    by_cases h0 : i = 0 <;> simp [h0] at hc
  · intro i hi hig
    simp only [initState] at hi hig ⊢
    have h1 : i ≠ 1 := by
      intro he
      exact hig (by simp [he])
    have h0 : i = 0 := by omega
    subst h0
    exact ⟨t, 0, by simp, by simp, by ring⟩

theorem connectAndRewire_pres {s s2 : PlannerState}
    {sampleIdx goalIdx anchor : Nat} {sub : Traj} (hinv : Inv s)
    (hs : sampleIdx < s.size) (hsg : sampleIdx ∉ s.goals)
    (hg : goalIdx ∈ s.goals)
    (h : connectAndRewire s sampleIdx goalIdx anchor sub = some s2) :
    Inv s2 := by
  have hgne : goalIdx ≠ sampleIdx := fun he => hsg (he ▸ hg)
  simp only [connectAndRewire] at h
  by_cases hcond : condCR (pushChild s sampleIdx goalIdx sub) sampleIdx goalIdx
  · rw [if_pos hcond] at h
    obtain ⟨s3, h3, hmv⟩ := Option.map_eq_some'.1 h
    have hinvBP : Inv (setBestParent (pushChild s sampleIdx goalIdx sub)
        goalIdx sampleIdx) := pushChildBP_inv sub hinv hs hsg hg
    have hsB : sampleIdx <
        (setBestParent (pushChild s sampleIdx goalIdx sub) goalIdx
          sampleIdx).size := hs
    obtain ⟨hinv3, _⟩ := updateDescendants_pres hinvBP hsB h3
    rw [← hmv]
    exact markViable_inv _ _ _ hinv3
  · rw [if_neg hcond] at h
    simp only [Option.map_some', Option.some.injEq] at h
    have hbp : (s.node goalIdx).best_parent ≠ none := by
      intro hn
      apply hcond
      simp only [condCR, pushChild_node_ne s sampleIdx goalIdx sub goalIdx hgne,
        hn]
    have hinv1 := pushChild_inv sub hinv hs hsg hg hbp
    rw [← h]
    exact markViable_inv _ _ _ hinv1

theorem inv_reachable : ∀ {s : PlannerState}, Reachable s → Inv s := by
  intro s h
  induction h with
  | init ss gs t => exact inv_init ss gs t
  | attach s p sm sub hr hp hpg hsz ih => exact attach_inv sm sub ih hp hpg
  | connect s si gi anchor sub s2 hr hs hsg hg hconn ih =>
    exact connectAndRewire_pres ih hs hsg hg hconn

-- ---------------------------------------------------------------------------
-- Best-parent chains terminate (claim C5).
-- ---------------------------------------------------------------------------

theorem bpIterate_absorbs (s : PlannerState) :
    ∀ k, bpIterate s none k = none := by
  intro k
  induction k with
  | zero => rfl
  | succ n ih =>
    simp only [bpIterate, Option.none_bind]
    exact ih

theorem rank_lt_of_bp {s : PlannerState} (hinv : Inv s) {i p : Nat}
    (hi : i < s.size) (hp : (s.node i).best_parent = some p) :
    nodeRank s p < nodeRank s i := by
  obtain ⟨hps, hmem⟩ := hinv.bpEdge i hi p hp
  exact rank_edge hinv hps hmem

theorem bpIterate_reaches_none {s : PlannerState} (hinv : Inv s) :
    ∀ (k i : Nat), nodeRank s i < k → bpIterate s (some i) k = none := by
  intro k
  induction k with
  | zero => intro i h; omega
  | succ n ih =>
    intro i h
    simp only [bpIterate, Option.some_bind]
    by_cases hi : i < s.size
    · rw [if_pos hi]
      cases hbp : (s.node i).best_parent with
      | none => exact bpIterate_absorbs s n
      | some p =>
        apply ih
        have := rank_lt_of_bp hinv hi hbp
        omega
    · rw [if_neg hi]
      exact bpIterate_absorbs s n

/-- Claim C5: in every graph state reachable by the planner's operations
(attach, goal connection with its rewiring), following `best_parent` links
from any node reaches a null `best_parent` within `size + 1` steps — the
iterated lookup is absorbed at `none` — so no cycle ever forms in the
best-parent chain. -/
theorem claim5_best_parent_acyclic (s : PlannerState) (hr : Reachable s)
    (i : Nat) : bpIterate s (some i) (s.size + 1) = none := by
  have hinv := inv_reachable hr
  by_cases hi : i < s.size
  · apply bpIterate_reaches_none hinv
    have := rank_le_size hi
    omega
  · have hstep : bpIterate s (some i) (s.size + 1) =
        bpIterate s none s.size := by
      simp only [bpIterate, Option.some_bind, if_neg hi]
    rw [hstep]
    exact bpIterate_absorbs s _

/-- Witness for claim C5 at a concrete reachable state (start node, goal
node, and one attached sample node). -/
theorem claim5_witness :
    bpIterate (attachNode (initState 0 10 0) 0 5 ⟨[0, 5], [0, 5]⟩) (some 2)
      ((attachNode (initState 0 10 0) 0 5 ⟨[0, 5], [0, 5]⟩).size + 1) = none :=
  claim5_best_parent_acyclic _
    (Reachable.attach _ 0 5 _ (Reachable.init 0 10 0) (by decide) (by decide)
      (by decide)) 2

-- ---------------------------------------------------------------------------
-- UpdateDescendants terminates (claim C9).
-- ---------------------------------------------------------------------------

/-- Claim C9: although the breadth-first traversal of `UpdateDescendants`
enqueues every child unconditionally and keeps no visited set, it terminates
on every node of every reachable graph state: with the fuel computed by
`fuelBound` the queue empties (the embedded loop returns `some`), because in
reachable states the child relation admits a ranking and so contains no
directed cycle. -/
theorem claim9_update_descendants_terminate (s : PlannerState)
    (hr : Reachable s) (i anchor : Nat) (hi : i < s.size) :
    ∃ s2, updateDescendants s i anchor = some s2 :=
  updateDescendants_total (inv_reachable hr) i anchor hi

/-- Witness for claim C9 at a concrete reachable state. -/
theorem claim9_witness :
    2 < (attachNode (initState 0 10 0) 0 5 ⟨[0, 5], [0, 5]⟩).size ∧
    ∃ s2, updateDescendants (attachNode (initState 0 10 0) 0 5 ⟨[0, 5], [0, 5]⟩)
      2 0 = some s2 :=
  ⟨by decide,
   claim9_update_descendants_terminate _
     (Reachable.attach _ 0 5 _ (Reachable.init 0 10 0) (by decide) (by decide)
       (by decide)) 2 0 (by decide)⟩

-- ---------------------------------------------------------------------------
-- Default cost functional and cost/time relation (claim C10).
-- ---------------------------------------------------------------------------

/-- Claim C10: the default cost functor satisfies
`Cost(traj) = traj.Duration()` for every trajectory, and consequently, in
every reachable graph state, every non-goal node (the start node and every
sample node created by the attach step, also after rewiring) has finite time
and cost with `cost_to_come = time - start_time`. -/
theorem claim10_cost_is_duration :
    (∀ tr : Traj, Cost tr = tr.Duration) ∧
    (∀ s, Reachable s → ∀ i, i < s.size → i ∉ s.goals →
      ∃ t c : ℚ, (s.node i).time = some t ∧
        (s.node i).cost_to_come = some c ∧ c = t - s.startTime) :=
  ⟨fun _ => rfl,
   fun _ hr i hi hig => (inv_reachable hr).costTime i hi hig⟩

/-- Witness for claim C10 at a concrete reachable state and its sample
node. -/
theorem claim10_witness :
    Cost ⟨[0, 5], [0, 5]⟩ = Traj.Duration ⟨[0, 5], [0, 5]⟩ ∧
    ∃ t c : ℚ,
      ((attachNode (initState 0 10 0) 0 5 ⟨[0, 5], [0, 5]⟩).node 2).time =
        some t ∧
      ((attachNode (initState 0 10 0) 0 5 ⟨[0, 5], [0, 5]⟩).node
        2).cost_to_come = some c ∧
      c = t - (attachNode (initState 0 10 0) 0 5 ⟨[0, 5], [0, 5]⟩).startTime :=
  ⟨claim10_cost_is_duration.1 _,
   claim10_cost_is_duration.2 _
     (Reachable.attach _ 0 5 _ (Reachable.init 0 10 0) (by decide) (by decide)
       (by decide)) 2 (by decide) (by decide)⟩

-- ---------------------------------------------------------------------------
-- Deadline tail of RecursivePlan (claim C6).
-- ---------------------------------------------------------------------------

/-- Claim C6: when the main loop of `RecursivePlan` exits on deadline without
having returned, the embedded tail behaves exactly as specified on EVERY
state the loop may leave behind: not outbound returns the empty trajectory;
outbound with a null best parent on the graph's initial (start) node logs
"No viable loops available." and returns the empty trajectory; outbound with
a non-null best parent returns `ExtractTrajectory(start, start)`, the viable
loop anchored at the start. The statement is unconditional in the state so
that the extract branch is characterised non-vacuously (in the executable
source, with the recursive return traversal commented out, no run ever gives
the start node a parent, so that branch is reached only through states a
return traversal would produce). -/
theorem claim6_timeout_return (s : PlannerState) (b : Bool) :
    (b = false → timeoutReturn s b = PlanOutcome.emptyNotOutbound) ∧
    (b = true → (s.node 0).best_parent = none →
      timeoutReturn s b = PlanOutcome.emptyNoViableLoops) ∧
    (b = true → ∀ p, (s.node 0).best_parent = some p →
      timeoutReturn s b = PlanOutcome.extractCall 0 0) := by
  refine ⟨?_, ?_, ?_⟩
  · intro hb
    subst hb
    rfl
  · intro hb hbp
    subst hb
    simp [timeoutReturn, hbp]
  · intro hb p hbp
    subst hb
    simp [timeoutReturn, hbp]

/-- Witness for claim C6 exercising all three cases: the non-outbound case
and the outbound null-parent case at the initial state, and the outbound
extract case at a state whose start node has a best parent. -/
theorem claim6_witness :
    timeoutReturn (initState 0 10 0) false = PlanOutcome.emptyNotOutbound ∧
    timeoutReturn (initState 0 10 0) true = PlanOutcome.emptyNoViableLoops ∧
    timeoutReturn (setBestParent (initState 0 10 0) 0 2) true =
      PlanOutcome.extractCall 0 0 :=
  ⟨(claim6_timeout_return _ false).1 rfl,
   (claim6_timeout_return _ true).2.1 rfl (by decide),
   (claim6_timeout_return _ true).2.2 rfl 2 (by decide)⟩

-- ---------------------------------------------------------------------------
-- The reattach condition of UpdateDescendants (claim C1).
-- ---------------------------------------------------------------------------

/-- Claim C1: the source condition (`part_002` line 487) is
`child->best_parent != nullptr || child->best_parent->cost_to_come > ...` —
`!=` where the claim (and the spec's intended predicate) has `==`. At the
concrete reachable state built by attaching sample node 2 to the start and
connecting it to the goal (node 1), the claim's predicate is false at the
visited edge (the goal's best parent is node 2 itself, whose cost, 5, is not
greater than the current node's cost, 5), so the claim says the child must be
left unchanged — its time would stay infinite — yet the code's
`UpdateDescendants` reattaches it and rewrites `best_parent = 2`,
`time = 10`, `cost_to_come = 10`. -/
theorem claim1_reattach_condition_bug :
    specReattachCond
      (setBestParent
        (pushChild (attachNode (initState 0 10 0) 0 5 ⟨[0, 5], [0, 5]⟩) 2 1
          ⟨[5, 10], [5, 10]⟩) 1 2) 1 2 = false ∧
    ((setBestParent
        (pushChild (attachNode (initState 0 10 0) 0 5 ⟨[0, 5], [0, 5]⟩) 2 1
          ⟨[5, 10], [5, 10]⟩) 1 2).node 1).time = none ∧
    (updateDescendants
        (setBestParent
          (pushChild (attachNode (initState 0 10 0) 0 5 ⟨[0, 5], [0, 5]⟩) 2 1
            ⟨[5, 10], [5, 10]⟩) 1 2) 2 0).map
      (fun s2 => ((s2.node 1).best_parent, (s2.node 1).time,
        (s2.node 1).cost_to_come)) = some (some 2, some 10, some 10) := by
  refine ⟨?_, ?_, ?_⟩
  · norm_num [specReattachCond, attachNode, initState, setNodeAt,
      setBestParent, pushChild, Function.update, Traj.Duration, Cost, vlt]
  · norm_num [attachNode, initState, setNodeAt, setBestParent, pushChild,
      Function.update]
  · norm_num [updateDescendants, bfsAux, processChildren, processChildrenAux,
      processChild, trajUpd, reattach, attachNode, initState, setNodeAt,
      setBestParent, pushChild, Function.update, Traj.Duration,
      Traj.ResetFirstTime, Cost, fuelBound, kidsBound, nodeRank, nodeW,
      List.range_succ]

-- ---------------------------------------------------------------------------
-- The recursive escape call (claim C2).
-- ---------------------------------------------------------------------------

/-- Claim C2: in the `child == nullptr` branch of the main loop the recursive
call (`part_002` lines 302-304) is commented out, so an outbound iteration
whose goal connection failed only logs and continues: the iteration result is
`continueLoop` with exactly the post-attach state, and the freshly attached
`sample_node` (index 2) is left with `is_viable = false` — no recursive
traversal is initiated and nothing marks it viable. -/
theorem claim2_recursive_escape_missing :
    loopIteration (initState 0 10 0) (some (0, 5, ⟨[0, 5], [0, 5]⟩)) none true =
      some (IterResult.continueLoop
        (attachNode (initState 0 10 0) 0 5 ⟨[0, 5], [0, 5]⟩)) ∧
    ((attachNode (initState 0 10 0) 0 5 ⟨[0, 5], [0, 5]⟩).node 2).is_viable =
      false := by
  refine ⟨rfl, ?_⟩
  norm_num [attachNode, initState, setNodeAt, Function.update]
